import Mathlib

/-!
Verification of the CityFlow traffic-signal environment core
(smartcross/envs/cityflow_env.py).

The embedding models the action codec (md2d / d2md), the staged
phase-transition loop (CityflowEnv._simulate), the reward aggregation
(CityflowEnv._get_reward), and the reset / step drivers.  The external
engine is modelled by the trace of commands the controller issues to it:
a setPhase command per set_tl_phase call and a tick per next_step call.
Fallible dictionary and list indexing (which raises in Python) is
modelled with Option.  Intersection identifiers are natural numbers;
road and lane identifiers are lists of characters, because the reward
code inspects them with string slicing and substring containment.
-/

/-- md2d (cityflow_env.py lines 15-20): fold the per-intersection phase
vector into one flat index, multiplying the accumulator by 4 and adding
each entry, most significant digit first. -/
def md2d (mdAction : List Nat) : Nat :=
  mdAction.foldl (fun res i => res * 4 + i) 0

/-- Digit extraction loop of d2md (lines 25-28): k iterations of
appending tmp mod 4 and replacing tmp by tmp div 4. -/
def d2mdGo : Nat → Nat → List Nat
  | 0, _ => []
  | k + 1, tmp => tmp % 4 :: d2mdGo k (tmp / 4)

/-- d2md (lines 23-30): four digit extractions followed by reversal. -/
def d2md (dAction : Nat) : List Nat :=
  (d2mdGo 4 dAction).reverse

/-- Commands the controller issues to the cityflow engine: a traffic
light phase assignment (set_tl_phase) or one simulation tick
(next_step). -/
inductive Event where
  | setPhase (cross : Nat) (phase : Nat)
  | tick
deriving DecidableEq

/-- Per-intersection phase classification built by _parse_config_file
(lines 77-87): the dictionary with keys G, Y and R holding engine phase
indices. -/
structure PhaseSet where
  G : List Nat
  Y : List Nat
  R : List Nat
deriving DecidableEq

/-- Assignment cur[k] = v on an insertion-ordered dictionary represented
as a list of key-value pairs.  In the Python program the keys of
_current_phases are distinct (it is a dict), so updating the key is the
same as updating its unique position. -/
def dictSet (cur : List (Nat × Nat)) (k v : Nat) : List (Nat × Nat) :=
  cur.map (fun p => if p.1 = k then (k, v) else p)

/-- First loop of _simulate (lines 169-176): iterate over
zip(action, current_phases.items()).  Unchanged intersections are
immediately re-commanded their current green phase and written back;
changed intersections are collected (as cross, target, previous) in
iteration order, mirroring the changed_tl_id dict. -/
def assignLoop (phases : Nat → PhaseSet) :
    List Nat → List (Nat × Nat) →
    Option (List Event × List (Nat × Nat) × List (Nat × Nat × Nat))
  | [], cur => some ([], cur, [])
  | _ :: _, [] => some ([], [], [])
  | act :: acts, pc :: cur =>
    if act = pc.2 then
      ((phases pc.1).G[act]?).bind (fun g =>
        (assignLoop phases acts cur).map (fun r =>
          (Event.setPhase pc.1 g :: r.1, (pc.1, act) :: r.2.1, r.2.2)))
    else
      (assignLoop phases acts cur).map (fun r =>
        (r.1, pc :: r.2.1, (pc.1, act, pc.2) :: r.2.2))

/-- Red-stage commands of _simulate (lines 183-185): each changed
intersection is commanded its first red phase R[0]. -/
def redCmds (phases : Nat → PhaseSet) :
    List (Nat × Nat × Nat) → Option (List Event)
  | [] => some []
  | t :: rest =>
    ((phases t.1).R[0]?).bind (fun p =>
      (redCmds phases rest).map (fun evs => Event.setPhase t.1 p :: evs))

/-- Yellow-stage commands of _simulate (lines 189-191): each changed
intersection is commanded the yellow phase indexed by its previous
green index cur_act. -/
def yellowCmds (phases : Nat → PhaseSet) :
    List (Nat × Nat × Nat) → Option (List Event)
  | [] => some []
  | t :: rest =>
    ((phases t.1).Y[t.2.2]?).bind (fun p =>
      (yellowCmds phases rest).map (fun evs => Event.setPhase t.1 p :: evs))

/-- Final green stage of _simulate (lines 194-197): each changed
intersection is commanded its target green phase and its current phase
entry is updated to the target. -/
def greenLoop (phases : Nat → PhaseSet) :
    List (Nat × Nat × Nat) → List (Nat × Nat) →
    Option (List Event × List (Nat × Nat))
  | [], cur => some ([], cur)
  | t :: rest, cur =>
    ((phases t.1).G[t.2.1]?).bind (fun g =>
      (greenLoop phases rest (dictSet cur t.1 t.2.1)).map (fun gl =>
        (Event.setPhase t.1 g :: gl.1, gl.2)))

/-- CityflowEnv._simulate (lines 162-201).  Returns the engine command
trace, the updated current-phase dictionary and the updated cumulative
duration; none models a raised Python exception from indexing. -/
def simulate (noActions : Bool) (redD yellowD greenD : Nat)
    (phases : Nat → PhaseSet) (action : List Nat)
    (cur : List (Nat × Nat)) (totalDur : Nat) :
    Option (List Event × List (Nat × Nat) × Nat) :=
  if noActions then
    some (List.replicate (redD + yellowD + greenD) Event.tick, cur,
      totalDur + (redD + yellowD + greenD))
  else
    (assignLoop phases action cur).bind (fun ac =>
      if ac.2.2 = [] then
        some (ac.1 ++ List.replicate (redD + yellowD + greenD) Event.tick,
          ac.2.1, totalDur + (redD + yellowD + greenD))
      else
        (if 0 < redD then redCmds phases ac.2.2 else some []).bind (fun redEvs =>
          (if 0 < yellowD then yellowCmds phases ac.2.2 else some []).bind (fun yelEvs =>
            (greenLoop phases ac.2.2 ac.2.1).map (fun gl =>
              (ac.1 ++ redEvs ++ List.replicate redD Event.tick ++
                  yelEvs ++ List.replicate yellowD Event.tick ++
                  gl.1 ++ List.replicate greenD Event.tick,
                gl.2, totalDur + (redD + yellowD + greenD))))))

/-- Python slice k[:-2]: drop the last two characters of a lane id,
yielding the id of the road the lane belongs to. -/
def stripTwo (k : List Char) : List Char :=
  k.dropLast.dropLast

/-- Python substring containment needle in hay for strings: the needle
occurs contiguously at some position of hay. -/
def isSubstring (needle hay : List Char) : Bool :=
  (List.range (hay.length + 1)).any
    (fun i => decide ((hay.drop i).take needle.length = needle))

/-- Inner accumulation of _get_reward over incoming roads (lines
151-154): for one road id, add the waiting count of every lane k with
k[:-2] contained in the road id string. -/
def laneMatchAdd (lw : List (List Char × Int)) (road : List Char)
    (acc : Int) : Int :=
  lw.foldl (fun a kv => if isSubstring (stripTwo kv.1) road then a + kv.2 else a) acc

/-- Inner accumulation of _get_reward over outgoing roads (lines
155-158): same matching, subtracting instead of adding. -/
def laneMatchSub (lw : List (List Char × Int)) (road : List Char)
    (acc : Int) : Int :=
  lw.foldl (fun a kv => if isSubstring (stripTwo kv.1) road then a - kv.2 else a) acc

/-- CityflowEnv._get_reward for one intersection (lines 149-159):
accumulate over incoming then outgoing roads and negate. -/
def crossReward (inR outR : List (List Char)) (lw : List (List Char × Int)) : Int :=
  -(outR.foldl (fun a r => laneMatchSub lw r a)
      (inR.foldl (fun a r => laneMatchAdd lw r a) 0))

/-- CityflowEnv._get_reward (lines 146-160): the per-intersection reward
dictionary. -/
def getReward (crossings : List Nat) (inRoads outRoads : Nat → List (List Char))
    (lw : List (List Char × Int)) : List (Nat × Int) :=
  crossings.map (fun c => (c, crossReward (inRoads c) (outRoads c) lw))

/-- Static configuration of the environment read in the constructor:
durations, episode budget, topology order, phase sets and road lists. -/
structure EnvConfig where
  noActions : Bool
  redD : Nat
  yellowD : Nat
  greenD : Nat
  maxDur : Nat
  crossings : List Nat
  phases : Nat → PhaseSet
  inRoads : Nat → List (List Char)
  outRoads : Nat → List (List Char)

/-- Mutable controller state: the current-phase dictionary, the
cumulative elapsed duration and the accumulated episode reward. -/
structure CtrlState where
  cur : List (Nat × Nat)
  totalDuration : Nat
  totalReward : Int
deriving DecidableEq

/-- The current-phase dictionary written by reset (lines 208-212):
every intersection is mapped to phase index 0. -/
def resetCur (crossings : List Nat) : List (Nat × Nat) :=
  crossings.map (fun c => (c, 0))

/-- Initial engine commands of reset (lines 209-211): in action mode
every intersection is commanded its green phase G[0]. -/
def resetCmds (phases : Nat → PhaseSet) : List Nat → Option (List Event)
  | [] => some []
  | c :: rest =>
    ((phases c).G[0]?).bind (fun g =>
      (resetCmds phases rest).map (fun evs => Event.setPhase c g :: evs))

/-- CityflowEnv.reset (lines 203-214): reset the engine, command the
initial green phases when actions are enabled, and zero the controller
state. -/
def resetEnv (cfg : EnvConfig) : Option (List Event × CtrlState) :=
  if cfg.noActions then some ([], ⟨resetCur cfg.crossings, 0, 0⟩)
  else
    (resetCmds cfg.phases cfg.crossings).map
      (fun evs => (evs, ⟨resetCur cfg.crossings, 0, 0⟩))

/-- Cumulative duration component of the state produced by reset. -/
def resetTotalDuration (cfg : EnvConfig) : Nat :=
  ((resetEnv cfg).map (fun r => r.2.totalDuration)).getD 0

/-- CityflowEnv.step on an already-decoded action vector (lines
216-231): simulate, read the reward snapshot, accumulate it, and
evaluate the termination predicate total duration strictly greater than
the episode budget.  The lane-waiting snapshot the engine would report
after the ticks is passed in as laneWaiting. -/
def stepEnv (cfg : EnvConfig) (st : CtrlState) (action : List Nat)
    (laneWaiting : List (List Char × Int)) :
    Option (List Event × CtrlState × Int × Bool) :=
  (simulate cfg.noActions cfg.redD cfg.yellowD cfg.greenD cfg.phases
      action st.cur st.totalDuration).map (fun r =>
    let rew := ((getReward cfg.crossings cfg.inRoads cfg.outRoads laneWaiting).map
      Prod.snd).sum
    (r.1, ⟨r.2.1, r.2.2, st.totalReward + rew⟩, rew, decide (cfg.maxDur < r.2.2)))

/-- CityflowEnv.step in flat discrete mode (lines 218-219): the flat
index is first decoded by d2md. -/
def stepFlat (cfg : EnvConfig) (st : CtrlState) (dAction : Nat)
    (laneWaiting : List (List Char × Int)) :
    Option (List Event × CtrlState × Int × Bool) :=
  stepEnv cfg st (d2md dAction) laneWaiting

/-!
Derived descriptions of the simulate trace, used to state and prove the
claims.  Each is a direct closed form of the corresponding loop above.
-/

/-- Closed form of the events issued by the first loop of _simulate:
one idempotent green re-assertion per unchanged zipped intersection. -/
def keepGreens (phases : Nat → PhaseSet) (acts : List Nat)
    (cur : List (Nat × Nat)) : List Event :=
  (acts.zip cur).filterMap (fun p =>
    if p.1 = p.2.2 then
      some (Event.setPhase p.2.1 (((phases p.2.1).G[p.1]?).getD 0))
    else none)

/-- Closed form of the changed_tl_id dict: the zipped pairs whose target
differs from the current phase, as (cross, target, previous) triples in
iteration order. -/
def changedOf (acts : List Nat) (cur : List (Nat × Nat)) :
    List (Nat × Nat × Nat) :=
  (acts.zip cur).filterMap (fun p =>
    if p.1 = p.2.2 then none else some (p.2.1, p.1, p.2.2))

/-- Closed form of the red-stage commands. -/
def redsOf (phases : Nat → PhaseSet) (ch : List (Nat × Nat × Nat)) : List Event :=
  ch.map (fun t => Event.setPhase t.1 (((phases t.1).R[0]?).getD 0))

/-- Closed form of the yellow-stage commands: the yellow phase is
indexed by the previous green index t.2.2. -/
def yellowsOf (phases : Nat → PhaseSet) (ch : List (Nat × Nat × Nat)) : List Event :=
  ch.map (fun t => Event.setPhase t.1 (((phases t.1).Y[t.2.2]?).getD 0))

/-- Closed form of the final green-stage commands: the green phase is
indexed by the target t.2.1. -/
def greensOf (phases : Nat → PhaseSet) (ch : List (Nat × Nat × Nat)) : List Event :=
  ch.map (fun t => Event.setPhase t.1 (((phases t.1).G[t.2.1]?).getD 0))

/-- Closed form of the current-phase dictionary after the final green
stage: every changed intersection is set to its target. -/
def applyChanges (ch : List (Nat × Nat × Nat)) (cur : List (Nat × Nat)) :
    List (Nat × Nat) :=
  ch.foldl (fun c t => dictSet c t.1 t.2.1) cur

/-- Closed form of the staged (red, yellow, green) part of the trace
when at least one intersection changes. -/
def stageTail (redD yellowD greenD : Nat) (phases : Nat → PhaseSet)
    (ch : List (Nat × Nat × Nat)) : List Event :=
  (if 0 < redD then redsOf phases ch else []) ++
    List.replicate redD Event.tick ++
    (if 0 < yellowD then yellowsOf phases ch else []) ++
    List.replicate yellowD Event.tick ++
    greensOf phases ch ++ List.replicate greenD Event.tick

/-- Closed form of the whole trace of one action-enabled _simulate
call. -/
def simTrace (redD yellowD greenD : Nat) (phases : Nat → PhaseSet)
    (acts : List Nat) (cur : List (Nat × Nat)) : List Event :=
  keepGreens phases acts cur ++
    (if changedOf acts cur = [] then
      List.replicate (redD + yellowD + greenD) Event.tick
    else stageTail redD yellowD greenD phases (changedOf acts cur))

/-- Number of engine ticks (next_step calls) in a trace. -/
def tickCount : List Event → Nat
  | [] => 0
  | Event.tick :: rest => tickCount rest + 1
  | Event.setPhase _ _ :: rest => tickCount rest

/-- Sum of the waiting counts of the lanes whose stripped id is a
substring of one given road id: what the reward code accumulates per
road. -/
def matchSum (lw : List (List Char × Int)) (road : List Char) : Int :=
  ((lw.filter (fun kv => isSubstring (stripTwo kv.1) road)).map Prod.snd).sum

/-- Sum of the waiting counts of the lanes whose stripped id equals one
given road id. -/
def eqSum (lw : List (List Char × Int)) (road : List Char) : Int :=
  ((lw.filter (fun kv => decide (stripTwo kv.1 = road))).map Prod.snd).sum

/-- Sum of the waiting counts of the lanes belonging to one of the
given roads (a lane belongs to the road obtained by stripping its last
two characters, as in _parse_config_file line 98). -/
def memSum (lw : List (List Char × Int)) (roads : List (List Char)) : Int :=
  ((lw.filter (fun kv => decide (stripTwo kv.1 ∈ roads))).map Prod.snd).sum

/-- Modelled from the spec (section 4.4 buildReward): sum the waiting
counts over the lanes of all incoming roads, subtract the sum over the
lanes of all outgoing roads, negate the result.  This is the reference
the reward code is compared against. -/
def specCrossReward (inR outR : List (List Char)) (lw : List (List Char × Int)) : Int :=
  -(memSum lw inR - memSum lw outR)

/-!
Concrete fixtures used by witnesses and counterexamples.
-/

/-- A small homogeneous phase table: two green, two yellow, one red
phase per intersection. -/
def phasesA : Nat → PhaseSet := fun _ => ⟨[10, 11], [20, 21], [30]⟩

/-- A four-intersection phase table with four green phases each,
matching the radix-4 codec. -/
def phasesB : Nat → PhaseSet := fun _ => ⟨[10, 11, 12, 13], [20, 21, 22, 23], [30]⟩

/-- A one-intersection configuration with unit stage durations and an
episode budget of two ticks. -/
def cfgA : EnvConfig :=
  ⟨false, 1, 1, 1, 2, [0], phasesA, fun _ => [], fun _ => []⟩

/-- A four-intersection configuration in flat discrete mode with a
large episode budget. -/
def cfgB : EnvConfig :=
  ⟨false, 1, 1, 1, 100, [0, 1, 2, 3], phasesB, fun _ => [], fun _ => []⟩

/-- The controller state right after reset for cfgB. -/
def stB : CtrlState :=
  ⟨[(0, 0), (1, 0), (2, 0), (3, 0)], 0, 0⟩

lemma exists_getElem?_of_lt : ∀ (l : List Nat) (i : Nat), i < l.length → ∃ g, l[i]? = some g := by
  intro l
  induction l with
  | nil => intro i h; simp at h
  | cons x xs ih =>
    intro i h
    cases i with
    | zero => exact ⟨x, List.getElem?_cons_zero⟩
    | succ j =>
      rw [List.getElem?_cons_succ]
      exact ih j (by simpa using h)

lemma getD_of_getElem? {l : List Nat} {i g : Nat} (h : l[i]? = some g) :
    (l[i]?).getD 0 = g := by
  rw [h]; rfl

lemma assignLoop_some (phases : Nat → PhaseSet) :
    ∀ (acts : List Nat) (cur : List (Nat × Nat))
      {e : List Event} {c2 : List (Nat × Nat)} {ch : List (Nat × Nat × Nat)},
      assignLoop phases acts cur = some (e, c2, ch) →
      e = keepGreens phases acts cur ∧ c2 = cur ∧ ch = changedOf acts cur := by
  intro acts
  induction acts with
  | nil =>
    intro cur e c2 ch h
    simp only [assignLoop, Option.some.injEq, Prod.mk.injEq] at h
    obtain ⟨h1, h2, h3⟩ := h
    simp [keepGreens, changedOf, ← h1, ← h2, ← h3]
  | cons a acts ih =>
    intro cur e c2 ch h
    cases cur with
    | nil =>
      simp only [assignLoop, Option.some.injEq, Prod.mk.injEq] at h
      obtain ⟨h1, h2, h3⟩ := h
      simp [keepGreens, changedOf, ← h1, ← h2, ← h3]
    | cons pc cur =>
      by_cases hac : a = pc.2
      · cases hG : (phases pc.1).G[a]? with
        | none =>
          simp only [assignLoop, if_pos hac, hG, Option.none_bind] at h
          exact absurd h (by simp)
        | some g =>
          cases hA : assignLoop phases acts cur with
          | none =>
            simp only [assignLoop, if_pos hac, hG, hA, Option.some_bind,
              Option.map_none'] at h
            exact absurd h (by simp)
          | some r =>
            simp only [assignLoop, if_pos hac, hG, hA, Option.some_bind,
              Option.map_some', Option.some.injEq, Prod.mk.injEq] at h
            obtain ⟨h1, h2, h3⟩ := h
            obtain ⟨e1, e2, e3⟩ := ih cur hA
            refine ⟨?_, ?_, ?_⟩
            · rw [← h1, e1]
              simp [keepGreens, List.zip_cons_cons, List.filterMap_cons, ← hac,
                getD_of_getElem? hG]
            · rw [← h2, e2, hac]
            · rw [← h3, e3]
              simp [changedOf, List.zip_cons_cons, List.filterMap_cons, hac]
      · cases hA : assignLoop phases acts cur with
        | none =>
          simp only [assignLoop, if_neg hac, hA, Option.map_none'] at h
          exact absurd h (by simp)
        | some r =>
          simp only [assignLoop, if_neg hac, hA, Option.map_some',
            Option.some.injEq, Prod.mk.injEq] at h
          obtain ⟨h1, h2, h3⟩ := h
          obtain ⟨e1, e2, e3⟩ := ih cur hA
          refine ⟨?_, ?_, ?_⟩
          · rw [← h1, e1]
            simp [keepGreens, List.zip_cons_cons, List.filterMap_cons, hac]
          · rw [← h2, e2]
          · rw [← h3, e3]
            simp [changedOf, List.zip_cons_cons, List.filterMap_cons, hac]

lemma assignLoop_isSome (phases : Nat → PhaseSet) :
    ∀ (acts : List Nat) (cur : List (Nat × Nat)),
      (∀ p ∈ acts.zip cur, p.1 = p.2.2 → p.1 < (phases p.2.1).G.length) →
      ∃ r, assignLoop phases acts cur = some r := by
  intro acts
  induction acts with
  | nil => intro cur _; exact ⟨_, rfl⟩
  | cons a acts ih =>
    intro cur hr
    cases cur with
    | nil => exact ⟨_, rfl⟩
    | cons pc cur =>
      have htail : ∀ p ∈ acts.zip cur, p.1 = p.2.2 → p.1 < (phases p.2.1).G.length := by
        intro p hp
        exact hr p (by simp [List.zip_cons_cons, hp])
      obtain ⟨r, hA⟩ := ih cur htail
      by_cases hac : a = pc.2
      · obtain ⟨g, hG0⟩ := exists_getElem?_of_lt _ a
          (hr (a, pc) (by simp [List.zip_cons_cons]) hac)
        have hG : (phases pc.1).G[a]? = some g := hG0
        refine ⟨(Event.setPhase pc.1 g :: r.1, (pc.1, a) :: r.2.1, r.2.2), ?_⟩
        simp only [assignLoop, if_pos hac, hG, hA, Option.some_bind, Option.map_some']
      · refine ⟨(r.1, pc :: r.2.1, (pc.1, a, pc.2) :: r.2.2), ?_⟩
        simp only [assignLoop, if_neg hac, hA, Option.map_some']

lemma redCmds_some (phases : Nat → PhaseSet) :
    ∀ (ch : List (Nat × Nat × Nat)) {evs : List Event},
      redCmds phases ch = some evs → evs = redsOf phases ch := by
  intro ch
  induction ch with
  | nil =>
    intro evs h
    simp only [redCmds, Option.some.injEq] at h
    simp [redsOf, ← h]
  | cons t rest ih =>
    intro evs h
    cases hR : (phases t.1).R[0]? with
    | none =>
      simp only [redCmds, hR, Option.none_bind] at h
      exact absurd h (by simp)
    | some p =>
      cases hRest : redCmds phases rest with
      | none =>
        simp only [redCmds, hR, hRest, Option.some_bind, Option.map_none'] at h
        exact absurd h (by simp)
      | some evs2 =>
        simp only [redCmds, hR, hRest, Option.some_bind, Option.map_some',
          Option.some.injEq] at h
        rw [← h, ih hRest]
        simp [redsOf, getD_of_getElem? hR]

lemma redCmds_isSome (phases : Nat → PhaseSet) :
    ∀ (ch : List (Nat × Nat × Nat)),
      (∀ t ∈ ch, (phases t.1).R ≠ []) →
      ∃ evs, redCmds phases ch = some evs := by
  intro ch
  induction ch with
  | nil => intro _; exact ⟨_, rfl⟩
  | cons t rest ih =>
    intro hr
    obtain ⟨evs, hRest⟩ := ih (fun t ht => hr t (List.mem_cons_of_mem _ ht))
    have hlen : 0 < (phases t.1).R.length :=
      List.length_pos.mpr (hr t (List.mem_cons_self _ _))
    obtain ⟨p, hR⟩ := exists_getElem?_of_lt _ 0 hlen
    exact ⟨Event.setPhase t.1 p :: evs,
      by simp only [redCmds, hR, hRest, Option.some_bind, Option.map_some']⟩

lemma yellowCmds_some (phases : Nat → PhaseSet) :
    ∀ (ch : List (Nat × Nat × Nat)) {evs : List Event},
      yellowCmds phases ch = some evs → evs = yellowsOf phases ch := by
  intro ch
  induction ch with
  | nil =>
    intro evs h
    simp only [yellowCmds, Option.some.injEq] at h
    simp [yellowsOf, ← h]
  | cons t rest ih =>
    intro evs h
    cases hY : (phases t.1).Y[t.2.2]? with
    | none =>
      simp only [yellowCmds, hY, Option.none_bind] at h
      exact absurd h (by simp)
    | some p =>
      cases hRest : yellowCmds phases rest with
      | none =>
        simp only [yellowCmds, hY, hRest, Option.some_bind, Option.map_none'] at h
        exact absurd h (by simp)
      | some evs2 =>
        simp only [yellowCmds, hY, hRest, Option.some_bind, Option.map_some',
          Option.some.injEq] at h
        rw [← h, ih hRest]
        simp [yellowsOf, getD_of_getElem? hY]

lemma yellowCmds_isSome (phases : Nat → PhaseSet) :
    ∀ (ch : List (Nat × Nat × Nat)),
      (∀ t ∈ ch, t.2.2 < (phases t.1).Y.length) →
      ∃ evs, yellowCmds phases ch = some evs := by
  intro ch
  induction ch with
  | nil => intro _; exact ⟨_, rfl⟩
  | cons t rest ih =>
    intro hr
    obtain ⟨evs, hRest⟩ := ih (fun t ht => hr t (List.mem_cons_of_mem _ ht))
    obtain ⟨p, hY⟩ := exists_getElem?_of_lt _ t.2.2 (hr t (List.mem_cons_self _ _))
    exact ⟨Event.setPhase t.1 p :: evs,
      by simp only [yellowCmds, hY, hRest, Option.some_bind, Option.map_some']⟩

lemma greenLoop_some (phases : Nat → PhaseSet) :
    ∀ (ch : List (Nat × Nat × Nat)) (cur : List (Nat × Nat))
      {gl : List Event × List (Nat × Nat)},
      greenLoop phases ch cur = some gl →
      gl.1 = greensOf phases ch ∧ gl.2 = applyChanges ch cur := by
  intro ch
  induction ch with
  | nil =>
    intro cur gl h
    simp only [greenLoop, Option.some.injEq] at h
    simp [greensOf, applyChanges, ← h]
  | cons t rest ih =>
    intro cur gl h
    cases hG : (phases t.1).G[t.2.1]? with
    | none =>
      simp only [greenLoop, hG, Option.none_bind] at h
      exact absurd h (by simp)
    | some g =>
      cases hRest : greenLoop phases rest (dictSet cur t.1 t.2.1) with
      | none =>
        simp only [greenLoop, hG, hRest, Option.some_bind, Option.map_none'] at h
        exact absurd h (by simp)
      | some gl2 =>
        simp only [greenLoop, hG, hRest, Option.some_bind, Option.map_some',
          Option.some.injEq] at h
        obtain ⟨e1, e2⟩ := ih (dictSet cur t.1 t.2.1) hRest
        refine ⟨?_, ?_⟩
        · rw [← h]
          simp [greensOf, e1, getD_of_getElem? hG]
        · rw [← h]
          simp [applyChanges, e2]

lemma greenLoop_isSome (phases : Nat → PhaseSet) :
    ∀ (ch : List (Nat × Nat × Nat)) (cur : List (Nat × Nat)),
      (∀ t ∈ ch, t.2.1 < (phases t.1).G.length) →
      ∃ gl, greenLoop phases ch cur = some gl := by
  intro ch
  induction ch with
  | nil => intro cur _; exact ⟨_, rfl⟩
  | cons t rest ih =>
    intro cur hr
    obtain ⟨gl, hRest⟩ := ih (dictSet cur t.1 t.2.1)
      (fun t ht => hr t (List.mem_cons_of_mem _ ht))
    obtain ⟨g, hG⟩ := exists_getElem?_of_lt _ t.2.1 (hr t (List.mem_cons_self _ _))
    exact ⟨(Event.setPhase t.1 g :: gl.1, gl.2),
      by simp only [greenLoop, hG, hRest, Option.some_bind, Option.map_some']⟩

lemma mem_changedOf {acts : List Nat} {cur : List (Nat × Nat)} {t : Nat × Nat × Nat}
    (ht : t ∈ changedOf acts cur) :
    (t.2.1, (t.1, t.2.2)) ∈ acts.zip cur ∧ t.2.1 ≠ t.2.2 := by
  simp only [changedOf, List.mem_filterMap] at ht
  obtain ⟨p, hp, hfp⟩ := ht
  by_cases hpe : p.1 = p.2.2
  · simp [hpe] at hfp
  · simp only [if_neg hpe, Option.some.injEq] at hfp
    rw [← hfp]
    exact ⟨hp, hpe⟩

lemma changedOf_mem {acts : List Nat} {cur : List (Nat × Nat)} {a c cu : Nat}
    (hp : (a, (c, cu)) ∈ acts.zip cur) (hne : a ≠ cu) :
    (c, a, cu) ∈ changedOf acts cur := by
  simp only [changedOf, List.mem_filterMap]
  exact ⟨(a, (c, cu)), hp, by simp [hne]⟩

lemma mem_keepGreens {phases : Nat → PhaseSet} {acts : List Nat}
    {cur : List (Nat × Nat)} {e : Event} (he : e ∈ keepGreens phases acts cur) :
    ∃ p, p ∈ acts.zip cur ∧ p.1 = p.2.2 ∧
      e = Event.setPhase p.2.1 (((phases p.2.1).G[p.1]?).getD 0) := by
  simp only [keepGreens, List.mem_filterMap] at he
  obtain ⟨p, hp, hfp⟩ := he
  by_cases hpe : p.1 = p.2.2
  · simp only [if_pos hpe, Option.some.injEq] at hfp
    exact ⟨p, hp, hpe, hfp.symm⟩
  · simp [hpe] at hfp

lemma keepGreens_mem {phases : Nat → PhaseSet} {acts : List Nat}
    {cur : List (Nat × Nat)} {a c cu : Nat}
    (hp : (a, (c, cu)) ∈ acts.zip cur) (heq : a = cu) :
    Event.setPhase c (((phases c).G[a]?).getD 0) ∈ keepGreens phases acts cur := by
  simp only [keepGreens, List.mem_filterMap]
  exact ⟨(a, (c, cu)), hp, by simp [heq]⟩

lemma zip_key_unique :
    ∀ (acts : List Nat) (cur : List (Nat × Nat)),
      (cur.map Prod.fst).Nodup →
      ∀ {a1 a2 c v1 v2 : Nat}, (a1, (c, v1)) ∈ acts.zip cur →
        (a2, (c, v2)) ∈ acts.zip cur → a1 = a2 ∧ v1 = v2 := by
  intro acts
  induction acts with
  | nil => intro cur _ a1 a2 c v1 v2 h1 _; simp at h1
  | cons a acts ih =>
    intro cur hnd a1 a2 c v1 v2 h1 h2
    cases cur with
    | nil => simp at h1
    | cons pc cur =>
      simp only [List.map_cons, List.nodup_cons] at hnd
      simp only [List.zip_cons_cons, List.mem_cons] at h1 h2
      rcases h1 with h1 | h1
      · rcases h2 with h2 | h2
        · rw [Prod.mk.injEq, Prod.mk.injEq] at h1 h2
          obtain ⟨e1, e2, e3⟩ := h1
          obtain ⟨f1, f2, f3⟩ := h2
          exact ⟨e1.trans f1.symm, e3.trans f3.symm⟩
        · exfalso
          rw [Prod.mk.injEq, Prod.mk.injEq] at h1
          obtain ⟨_, e2, _⟩ := h1
          have hc2 : (c, v2) ∈ cur := (List.of_mem_zip h2).2
          exact hnd.1 (e2 ▸ List.mem_map_of_mem Prod.fst hc2)
      · rcases h2 with h2 | h2
        · exfalso
          rw [Prod.mk.injEq, Prod.mk.injEq] at h2
          obtain ⟨_, f2, _⟩ := h2
          have hc1 : (c, v1) ∈ cur := (List.of_mem_zip h1).2
          exact hnd.1 (f2 ▸ List.mem_map_of_mem Prod.fst hc1)
        · exact ih cur hnd.2 h1 h2

lemma tickCount_append : ∀ (l1 l2 : List Event),
    tickCount (l1 ++ l2) = tickCount l1 + tickCount l2 := by
  intro l1 l2
  induction l1 with
  | nil => simp [tickCount]
  | cons e rest ih =>
    cases e with
    | setPhase c p => simp [tickCount, ih]
    | tick => simp [tickCount, ih]; omega

lemma tickCount_replicate (n : Nat) : tickCount (List.replicate n Event.tick) = n := by
  induction n with
  | zero => rfl
  | succ k ih => simp [List.replicate_succ, tickCount, ih]

lemma tickCount_eq_zero {l : List Event} (h : ∀ e ∈ l, e ≠ Event.tick) :
    tickCount l = 0 := by
  induction l with
  | nil => rfl
  | cons e rest ih =>
    cases e with
    | setPhase c p => exact ih (fun e he => h e (List.mem_cons_of_mem _ he))
    | tick => exact absurd rfl (h Event.tick (List.mem_cons_self _ _))

lemma tickCount_keepGreens (phases : Nat → PhaseSet) (acts : List Nat)
    (cur : List (Nat × Nat)) : tickCount (keepGreens phases acts cur) = 0 := by
  refine tickCount_eq_zero (fun e he => ?_)
  obtain ⟨p, _, _, he⟩ := mem_keepGreens he
  simp [he]

lemma tickCount_map_setPhase (f : Nat × Nat × Nat → Event)
    (hf : ∀ t, f t ≠ Event.tick) (ch : List (Nat × Nat × Nat)) :
    tickCount (ch.map f) = 0 := by
  refine tickCount_eq_zero (fun e he => ?_)
  obtain ⟨t, _, ht⟩ := List.mem_map.mp he
  exact ht ▸ hf t

lemma tickCount_stageTail (redD yellowD greenD : Nat) (phases : Nat → PhaseSet)
    (ch : List (Nat × Nat × Nat)) :
    tickCount (stageTail redD yellowD greenD phases ch) = redD + yellowD + greenD := by
  have hr : tickCount (redsOf phases ch) = 0 :=
    tickCount_map_setPhase _ (fun t => by simp) ch
  have hy : tickCount (yellowsOf phases ch) = 0 :=
    tickCount_map_setPhase _ (fun t => by simp) ch
  have hg : tickCount (greensOf phases ch) = 0 :=
    tickCount_map_setPhase _ (fun t => by simp) ch
  unfold stageTail
  by_cases h1 : 0 < redD <;> by_cases h2 : 0 < yellowD <;>
    simp [h1, h2, tickCount_append, tickCount_replicate, hr, hy, hg, tickCount] <;>
    omega

lemma tickCount_simTrace (redD yellowD greenD : Nat) (phases : Nat → PhaseSet)
    (acts : List Nat) (cur : List (Nat × Nat)) :
    tickCount (simTrace redD yellowD greenD phases acts cur) =
      redD + yellowD + greenD := by
  unfold simTrace
  by_cases hch : changedOf acts cur = [] <;>
    simp [hch, tickCount_append, tickCount_keepGreens, tickCount_replicate,
      tickCount_stageTail]

lemma simulate_some (redD yellowD greenD : Nat) (phases : Nat → PhaseSet)
    (acts : List Nat) (cur : List (Nat × Nat)) (td : Nat)
    {evs : List Event} {curB : List (Nat × Nat)} {tdB : Nat}
    (h : simulate false redD yellowD greenD phases acts cur td = some (evs, curB, tdB)) :
    evs = simTrace redD yellowD greenD phases acts cur ∧
    curB = applyChanges (changedOf acts cur) cur ∧
    tdB = td + (redD + yellowD + greenD) := by
  cases hA : assignLoop phases acts cur with
  | none =>
    rw [simulate] at h
    simp only [Bool.false_eq_true, if_false, hA, Option.none_bind] at h
    exact absurd h (by simp)
  | some ac =>
    obtain ⟨e1, e2, e3⟩ := assignLoop_some phases acts cur (by rw [hA])
    rw [simulate] at h
    simp only [Bool.false_eq_true, if_false, hA, Option.some_bind] at h
    by_cases hch : ac.2.2 = []
    · rw [if_pos hch] at h
      simp only [Option.some.injEq, Prod.mk.injEq] at h
      obtain ⟨h1, h2, h3⟩ := h
      have hch2 : changedOf acts cur = [] := by rw [← e3, hch]
      refine ⟨?_, ?_, by omega⟩
      · rw [← h1, e1, simTrace, if_pos hch2]
      · rw [← h2, e2, hch2, applyChanges]
        simp
    · rw [if_neg hch] at h
      have hch2 : changedOf acts cur ≠ [] := by rw [← e3]; exact hch
      cases hred : (if 0 < redD then redCmds phases ac.2.2 else some []) with
      | none =>
        rw [hred] at h
        exact absurd h (by simp)
      | some redEvs =>
        cases hyel : (if 0 < yellowD then yellowCmds phases ac.2.2 else some []) with
        | none =>
          rw [hred, hyel] at h
          simp only [Option.some_bind, Option.none_bind] at h
          exact absurd h (by simp)
        | some yelEvs =>
          cases hgl : greenLoop phases ac.2.2 ac.2.1 with
          | none =>
            rw [hred, hyel, hgl] at h
            simp only [Option.some_bind, Option.map_none'] at h
            exact absurd h (by simp)
          | some gl =>
            rw [hred, hyel, hgl] at h
            simp only [Option.some_bind, Option.map_some', Option.some.injEq,
              Prod.mk.injEq] at h
            obtain ⟨h1, h2, h3⟩ := h
            obtain ⟨g1, g2⟩ := greenLoop_some phases ac.2.2 ac.2.1 hgl
            have hredEq : redEvs = (if 0 < redD then redsOf phases (changedOf acts cur) else []) := by
              by_cases hr : 0 < redD
              · rw [if_pos hr] at hred
                rw [if_pos hr, ← e3]
                exact redCmds_some phases ac.2.2 hred
              · rw [if_neg hr] at hred
                rw [if_neg hr]
                simpa using hred.symm
            have hyelEq : yelEvs = (if 0 < yellowD then yellowsOf phases (changedOf acts cur) else []) := by
              by_cases hy : 0 < yellowD
              · rw [if_pos hy] at hyel
                rw [if_pos hy, ← e3]
                exact yellowCmds_some phases ac.2.2 hyel
              · rw [if_neg hy] at hyel
                rw [if_neg hy]
                simpa using hyel.symm
            refine ⟨?_, ?_, by omega⟩
            · rw [← h1, e1, hredEq, hyelEq, g1, e3, simTrace, if_neg hch2, stageTail]
              simp [List.append_assoc]
            · rw [← h2, g2, e2, e3]

lemma simulate_eq (redD yellowD greenD : Nat) (phases : Nat → PhaseSet)
    (acts : List Nat) (cur : List (Nat × Nat)) (td : Nat)
    (H : ∀ p ∈ acts.zip cur, p.1 < (phases p.2.1).G.length ∧
      p.2.2 < (phases p.2.1).Y.length ∧ (phases p.2.1).R ≠ []) :
    simulate false redD yellowD greenD phases acts cur td =
      some (simTrace redD yellowD greenD phases acts cur,
        applyChanges (changedOf acts cur) cur, td + (redD + yellowD + greenD)) := by
  obtain ⟨ac, hA⟩ := assignLoop_isSome phases acts cur
    (fun p hp _ => (H p hp).1)
  obtain ⟨e1, e2, e3⟩ := assignLoop_some phases acts cur (by rw [hA])
  have hHch : ∀ t ∈ ac.2.2, t.2.1 < (phases t.1).G.length ∧
      t.2.2 < (phases t.1).Y.length ∧ (phases t.1).R ≠ [] := by
    intro t ht
    rw [e3] at ht
    obtain ⟨hzip, _⟩ := mem_changedOf ht
    exact H _ hzip
  by_cases hch : ac.2.2 = []
  · rw [simulate]
    simp only [Bool.false_eq_true, if_false, hA, Option.some_bind, if_pos hch]
    have hch2 : changedOf acts cur = [] := by rw [← e3, hch]
    rw [e1, e2, simTrace, if_pos hch2, hch2, applyChanges]
    simp
  · obtain ⟨redEvs, hred⟩ : ∃ evs, (if 0 < redD then redCmds phases ac.2.2 else some []) = some evs := by
      by_cases hr : 0 < redD
      · rw [if_pos hr]
        exact redCmds_isSome phases ac.2.2 (fun t ht => (hHch t ht).2.2)
      · exact ⟨[], if_neg hr⟩
    obtain ⟨yelEvs, hyel⟩ : ∃ evs, (if 0 < yellowD then yellowCmds phases ac.2.2 else some []) = some evs := by
      by_cases hy : 0 < yellowD
      · rw [if_pos hy]
        exact yellowCmds_isSome phases ac.2.2 (fun t ht => (hHch t ht).2.1)
      · exact ⟨[], if_neg hy⟩
    obtain ⟨gl, hgl⟩ := greenLoop_isSome phases ac.2.2 ac.2.1
      (fun t ht => (hHch t ht).1)
    have hstep : simulate false redD yellowD greenD phases acts cur td =
        some (ac.1 ++ redEvs ++ List.replicate redD Event.tick ++
            yelEvs ++ List.replicate yellowD Event.tick ++
            gl.1 ++ List.replicate greenD Event.tick,
          gl.2, td + (redD + yellowD + greenD)) := by
      rw [simulate]
      simp only [Bool.false_eq_true, if_false, hA, Option.some_bind, if_neg hch,
        hred, hyel, hgl, Option.map_some']
    obtain ⟨s1, s2, s3⟩ := simulate_some redD yellowD greenD phases acts cur td hstep
    rw [hstep, s1, s2]

lemma mem_dictSet {cur : List (Nat × Nat)} {k v : Nat} {pr : Nat × Nat}
    (h : pr ∈ dictSet cur k v) : pr ∈ cur ∨ pr = (k, v) := by
  simp only [dictSet, List.mem_map] at h
  obtain ⟨q, hq, hfq⟩ := h
  by_cases hk : q.1 = k
  · right
    rw [← hfq, if_pos hk]
  · left
    rw [← hfq, if_neg hk]
    exact hq

lemma mem_applyChanges :
    ∀ (ch : List (Nat × Nat × Nat)) (cur : List (Nat × Nat)) {pr : Nat × Nat},
      pr ∈ applyChanges ch cur →
      pr ∈ cur ∨ ∃ t ∈ ch, pr = (t.1, t.2.1) := by
  intro ch
  induction ch with
  | nil =>
    intro cur pr h
    left
    simpa [applyChanges] using h
  | cons t rest ih =>
    intro cur pr h
    have h2 : pr ∈ applyChanges rest (dictSet cur t.1 t.2.1) := by
      simpa [applyChanges] using h
    rcases ih (dictSet cur t.1 t.2.1) h2 with hin | ⟨u, hu, hpr⟩
    · rcases mem_dictSet hin with hin2 | hpr
      · exact Or.inl hin2
      · exact Or.inr ⟨t, List.mem_cons_self _ _, hpr⟩
    · exact Or.inr ⟨u, List.mem_cons_of_mem _ hu, hpr⟩

lemma zip_mem_left {acts : List Nat} {cur : List (Nat × Nat)} {p : Nat × (Nat × Nat)}
    (hp : p ∈ acts.zip cur) : p.1 ∈ acts := by
  obtain ⟨x, y⟩ := p
  exact (List.of_mem_zip hp).1

lemma simulate_td (noActions : Bool) (redD yellowD greenD : Nat)
    (phases : Nat → PhaseSet) (acts : List Nat) (cur : List (Nat × Nat)) (td : Nat)
    {evs : List Event} {curB : List (Nat × Nat)} {tdB : Nat}
    (h : simulate noActions redD yellowD greenD phases acts cur td = some (evs, curB, tdB)) :
    tdB = td + (redD + yellowD + greenD) := by
  cases noActions with
  | true =>
    rw [simulate] at h
    simp only [if_true] at h
    simp only [Option.some.injEq, Prod.mk.injEq] at h
    exact h.2.2.symm
  | false => exact (simulate_some redD yellowD greenD phases acts cur td h).2.2

lemma simulate_noActions_cur (redD yellowD greenD : Nat)
    (phases : Nat → PhaseSet) (acts : List Nat) (cur : List (Nat × Nat)) (td : Nat)
    {evs : List Event} {curB : List (Nat × Nat)} {tdB : Nat}
    (h : simulate true redD yellowD greenD phases acts cur td = some (evs, curB, tdB)) :
    curB = cur := by
  rw [simulate] at h
  simp only [if_true] at h
  simp only [Option.some.injEq, Prod.mk.injEq] at h
  exact h.2.1.symm

lemma setPhase_mem_map {c y : Nat} {f : Nat × Nat × Nat → Nat}
    {ch : List (Nat × Nat × Nat)}
    (hmem : Event.setPhase c y ∈ ch.map (fun t => Event.setPhase t.1 (f t))) :
    ∃ t ∈ ch, t.1 = c ∧ y = f t := by
  simp only [List.mem_map] at hmem
  obtain ⟨t, ht, he⟩ := hmem
  simp only [Event.setPhase.injEq] at he
  exact ⟨t, ht, he.1, he.2.symm⟩

/-- Claim C1: in action-enabled mode, with the action entries in range
for their green lists and with the standard phase-set invariants (a
yellow phase for the current index, a nonempty red list), one
_simulate call succeeds, its trace contains exactly
redDuration + yellowDuration + greenDuration engine ticks, and the
cumulative duration grows by exactly that amount, whether or not any
intersection changes phase. -/
theorem simulate_tick_conservation (redD yellowD greenD : Nat)
    (phases : Nat → PhaseSet) (acts : List Nat) (cur : List (Nat × Nat)) (td : Nat)
    (H : ∀ p ∈ acts.zip cur, p.1 < (phases p.2.1).G.length ∧
      p.2.2 < (phases p.2.1).Y.length ∧ (phases p.2.1).R ≠ []) :
    simulate false redD yellowD greenD phases acts cur td =
      some (simTrace redD yellowD greenD phases acts cur,
        applyChanges (changedOf acts cur) cur, td + (redD + yellowD + greenD)) ∧
    tickCount (simTrace redD yellowD greenD phases acts cur) =
      redD + yellowD + greenD :=
  ⟨simulate_eq redD yellowD greenD phases acts cur td H,
    tickCount_simTrace redD yellowD greenD phases acts cur⟩

theorem simulate_tick_conservation_witness :
    (∀ p ∈ ([1, 0] : List Nat).zip [(0, 0), (1, 0)],
      p.1 < (phasesA p.2.1).G.length ∧ p.2.2 < (phasesA p.2.1).Y.length ∧
      (phasesA p.2.1).R ≠ []) ∧
    (simulate false 2 1 3 phasesA [1, 0] [(0, 0), (1, 0)] 5 =
      some (simTrace 2 1 3 phasesA [1, 0] [(0, 0), (1, 0)],
        applyChanges (changedOf [1, 0] [(0, 0), (1, 0)]) [(0, 0), (1, 0)],
        5 + (2 + 1 + 3)) ∧
      tickCount (simTrace 2 1 3 phasesA [1, 0] [(0, 0), (1, 0)]) = 2 + 1 + 3) :=
  ⟨by decide,
    simulate_tick_conservation 2 1 3 phasesA [1, 0] [(0, 0), (1, 0)] 5 (by decide)⟩

/-- Claim C2: an intersection whose target differs from its current
phase is commanded, during the yellow clearance stage, the yellow phase
at the position of its previous green index (the one being vacated),
and every yellow-stage command it receives uses that index, not the
target index. -/
theorem simulate_yellow_previous (redD yellowD greenD : Nat)
    (phases : Nat → PhaseSet) (acts : List Nat) (cur : List (Nat × Nat)) (td : Nat)
    (a c cu : Nat)
    (H : ∀ p ∈ acts.zip cur, p.1 < (phases p.2.1).G.length ∧
      p.2.2 < (phases p.2.1).Y.length ∧ (phases p.2.1).R ≠ [])
    (Hnd : (cur.map Prod.fst).Nodup)
    (hp : (a, (c, cu)) ∈ acts.zip cur) (hne : a ≠ cu) (hy : 0 < yellowD) :
    simulate false redD yellowD greenD phases acts cur td =
      some (simTrace redD yellowD greenD phases acts cur,
        applyChanges (changedOf acts cur) cur, td + (redD + yellowD + greenD)) ∧
    Event.setPhase c (((phases c).Y[cu]?).getD 0) ∈
      simTrace redD yellowD greenD phases acts cur ∧
    ∀ y, Event.setPhase c y ∈ yellowsOf phases (changedOf acts cur) →
      y = ((phases c).Y[cu]?).getD 0 := by
  have hmem : (c, a, cu) ∈ changedOf acts cur := changedOf_mem hp hne
  have hchne : changedOf acts cur ≠ [] := List.ne_nil_of_mem hmem
  have hyel : Event.setPhase c (((phases c).Y[cu]?).getD 0) ∈
      yellowsOf phases (changedOf acts cur) := by
    simp only [yellowsOf, List.mem_map]
    exact ⟨(c, a, cu), hmem, rfl⟩
  refine ⟨simulate_eq redD yellowD greenD phases acts cur td H, ?_, ?_⟩
  · rw [simTrace, if_neg hchne, stageTail, if_pos hy]
    simp only [List.mem_append]
    tauto
  · intro y hy2
    rw [yellowsOf] at hy2
    obtain ⟨t, ht, htc, hty⟩ := setPhase_mem_map hy2
    obtain ⟨hzip, _⟩ := mem_changedOf ht
    rw [htc] at hzip
    obtain ⟨_, hv⟩ := zip_key_unique acts cur Hnd hzip hp
    rw [hty, hv, htc]

theorem simulate_yellow_previous_witness :
    (∀ p ∈ ([1, 0] : List Nat).zip [(0, 0), (1, 0)],
      p.1 < (phasesA p.2.1).G.length ∧ p.2.2 < (phasesA p.2.1).Y.length ∧
      (phasesA p.2.1).R ≠ []) ∧
    (([(0, 0), (1, 0)] : List (Nat × Nat)).map Prod.fst).Nodup ∧
    ((1 : Nat), ((0 : Nat), (0 : Nat))) ∈ ([1, 0] : List Nat).zip [(0, 0), (1, 0)] ∧
    (1 : Nat) ≠ 0 ∧ (0 : Nat) < 1 ∧
    (simulate false 2 1 3 phasesA [1, 0] [(0, 0), (1, 0)] 5 =
      some (simTrace 2 1 3 phasesA [1, 0] [(0, 0), (1, 0)],
        applyChanges (changedOf [1, 0] [(0, 0), (1, 0)]) [(0, 0), (1, 0)],
        5 + (2 + 1 + 3)) ∧
      Event.setPhase 0 (((phasesA 0).Y[(0 : Nat)]?).getD 0) ∈
        simTrace 2 1 3 phasesA [1, 0] [(0, 0), (1, 0)] ∧
      ∀ y, Event.setPhase 0 y ∈ yellowsOf phasesA (changedOf [1, 0] [(0, 0), (1, 0)]) →
        y = ((phasesA 0).Y[(0 : Nat)]?).getD 0) :=
  ⟨by decide, by decide, by decide, by decide, by decide,
    simulate_yellow_previous 2 1 3 phasesA [1, 0] [(0, 0), (1, 0)] 5 1 0 0
      (by decide) (by decide) (by decide) (by decide) (by decide)⟩

/-- Claim C3: an intersection whose target equals its current phase
receives no red and no yellow command during the step, even when other
intersections transition; the only phase command it can receive in the
whole trace is the idempotent re-assertion of its current green
phase. -/
theorem simulate_unchanged_isolation (redD yellowD greenD : Nat)
    (phases : Nat → PhaseSet) (acts : List Nat) (cur : List (Nat × Nat)) (td : Nat)
    (a c cu : Nat)
    (H : ∀ p ∈ acts.zip cur, p.1 < (phases p.2.1).G.length ∧
      p.2.2 < (phases p.2.1).Y.length ∧ (phases p.2.1).R ≠ [])
    (Hnd : (cur.map Prod.fst).Nodup)
    (hp : (a, (c, cu)) ∈ acts.zip cur) (heq : a = cu) :
    simulate false redD yellowD greenD phases acts cur td =
      some (simTrace redD yellowD greenD phases acts cur,
        applyChanges (changedOf acts cur) cur, td + (redD + yellowD + greenD)) ∧
    ∀ y, Event.setPhase c y ∈ simTrace redD yellowD greenD phases acts cur →
      y = ((phases c).G[cu]?).getD 0 := by
  refine ⟨simulate_eq redD yellowD greenD phases acts cur td H, ?_⟩
  have hkeep : ∀ y, Event.setPhase c y ∈ keepGreens phases acts cur →
      y = ((phases c).G[cu]?).getD 0 := by
    intro y hk
    obtain ⟨⟨pa, pc, pcu⟩, hp2, hpe, he⟩ := mem_keepGreens hk
    simp only [Event.setPhase.injEq] at he
    obtain ⟨hec, hey⟩ := he
    rw [← hec] at hp2
    obtain ⟨ha2, hv2⟩ := zip_key_unique acts cur Hnd hp2 hp
    simp only at hpe
    rw [hey, hec, hpe, hv2]
  have hchanged : ∀ (t : Nat × Nat × Nat), t ∈ changedOf acts cur → t.1 ≠ c := by
    intro t ht htc
    obtain ⟨hzip, hne⟩ := mem_changedOf ht
    rw [htc] at hzip
    obtain ⟨ha2, hv2⟩ := zip_key_unique acts cur Hnd hzip hp
    exact hne (by rw [ha2, hv2, heq])
  intro y hmem
  rw [simTrace] at hmem
  by_cases hch : changedOf acts cur = []
  · rw [if_pos hch] at hmem
    rcases List.mem_append.mp hmem with hk | hrep
    · exact hkeep y hk
    · exact absurd (List.eq_of_mem_replicate hrep) (by simp)
  · rw [if_neg hch, stageTail] at hmem
    simp only [List.mem_append] at hmem
    rcases hmem with hk | (((((hred | hrt) | hyl) | hyt) | hgr) | hgt)
    · exact hkeep y hk
    · by_cases hr : 0 < redD
      · rw [if_pos hr, redsOf] at hred
        obtain ⟨t, ht, htc, _⟩ := setPhase_mem_map hred
        exact absurd htc (hchanged t ht)
      · rw [if_neg hr] at hred
        exact absurd hred (by simp)
    · exact absurd (List.eq_of_mem_replicate hrt) (by simp)
    · by_cases hy : 0 < yellowD
      · rw [if_pos hy, yellowsOf] at hyl
        obtain ⟨t, ht, htc, _⟩ := setPhase_mem_map hyl
        exact absurd htc (hchanged t ht)
      · rw [if_neg hy] at hyl
        exact absurd hyl (by simp)
    · exact absurd (List.eq_of_mem_replicate hyt) (by simp)
    · rw [greensOf] at hgr
      obtain ⟨t, ht, htc, _⟩ := setPhase_mem_map hgr
      exact absurd htc (hchanged t ht)
    · exact absurd (List.eq_of_mem_replicate hgt) (by simp)

theorem simulate_unchanged_isolation_witness :
    (∀ p ∈ ([1, 0] : List Nat).zip [(0, 0), (1, 0)],
      p.1 < (phasesA p.2.1).G.length ∧ p.2.2 < (phasesA p.2.1).Y.length ∧
      (phasesA p.2.1).R ≠ []) ∧
    (([(0, 0), (1, 0)] : List (Nat × Nat)).map Prod.fst).Nodup ∧
    ((0 : Nat), ((1 : Nat), (0 : Nat))) ∈ ([1, 0] : List Nat).zip [(0, 0), (1, 0)] ∧
    (simulate false 2 1 3 phasesA [1, 0] [(0, 0), (1, 0)] 5 =
      some (simTrace 2 1 3 phasesA [1, 0] [(0, 0), (1, 0)],
        applyChanges (changedOf [1, 0] [(0, 0), (1, 0)]) [(0, 0), (1, 0)],
        5 + (2 + 1 + 3)) ∧
      ∀ y, Event.setPhase 1 y ∈ simTrace 2 1 3 phasesA [1, 0] [(0, 0), (1, 0)] →
        y = ((phasesA 1).G[(0 : Nat)]?).getD 0) :=
  ⟨by decide, by decide, by decide,
    simulate_unchanged_isolation 2 1 3 phasesA [1, 0] [(0, 0), (1, 0)] 5 0 1 0
      (by decide) (by decide) (by decide) rfl⟩

/-- Claim C8: when the decoded target equals the current phase for
every zipped intersection, _simulate leaves the current-phase
dictionary unchanged and the trace consists of the free-running ticks
plus only idempotent green re-assertions of the already-current
phases. -/
theorem simulate_noop_stability (redD yellowD greenD : Nat)
    (phases : Nat → PhaseSet) (acts : List Nat) (cur : List (Nat × Nat)) (td : Nat)
    (Hall : ∀ p ∈ acts.zip cur, p.1 = p.2.2)
    (Hrange : ∀ p ∈ acts.zip cur, p.1 < (phases p.2.1).G.length) :
    simulate false redD yellowD greenD phases acts cur td =
      some (keepGreens phases acts cur ++
        List.replicate (redD + yellowD + greenD) Event.tick, cur,
        td + (redD + yellowD + greenD)) ∧
    ∀ e ∈ keepGreens phases acts cur, ∃ p, p ∈ acts.zip cur ∧ p.1 = p.2.2 ∧
      e = Event.setPhase p.2.1 (((phases p.2.1).G[p.2.2]?).getD 0) := by
  have hch : changedOf acts cur = [] := by
    rw [changedOf, List.filterMap_eq_nil_iff]
    intro p hp
    simp [Hall p hp]
  constructor
  · obtain ⟨ac, hA⟩ := assignLoop_isSome phases acts cur (fun p hp _ => Hrange p hp)
    obtain ⟨e1, e2, e3⟩ := assignLoop_some phases acts cur (by rw [hA])
    rw [simulate]
    simp only [Bool.false_eq_true, if_false, hA, Option.some_bind]
    rw [if_pos (by rw [e3, hch]), e1, e2]
  · intro e he
    obtain ⟨p, hp, hpe, hee⟩ := mem_keepGreens he
    exact ⟨p, hp, hpe, by rw [hee, hpe]⟩

theorem simulate_noop_stability_witness :
    (∀ p ∈ ([0, 0] : List Nat).zip [(0, 0), (1, 0)], p.1 = p.2.2) ∧
    (∀ p ∈ ([0, 0] : List Nat).zip [(0, 0), (1, 0)],
      p.1 < (phasesA p.2.1).G.length) ∧
    (simulate false 2 1 3 phasesA [0, 0] [(0, 0), (1, 0)] 7 =
      some (keepGreens phasesA [0, 0] [(0, 0), (1, 0)] ++
        List.replicate (2 + 1 + 3) Event.tick, [(0, 0), (1, 0)], 7 + (2 + 1 + 3)) ∧
      ∀ e ∈ keepGreens phasesA [0, 0] [(0, 0), (1, 0)],
        ∃ p, p ∈ ([0, 0] : List Nat).zip [(0, 0), (1, 0)] ∧ p.1 = p.2.2 ∧
          e = Event.setPhase p.2.1 (((phasesA p.2.1).G[p.2.2]?).getD 0)) :=
  ⟨by decide, by decide,
    simulate_noop_stability 2 1 3 phasesA [0, 0] [(0, 0), (1, 0)] 7
      (by decide) (by decide)⟩

/-- Claim C10: the controller state invariant.  The dictionary
installed by reset maps every intersection to phase index 0, and any
successful _simulate call whose zipped action entries are within their
green ranges keeps every current index within range: each entry is
either its previous pair or an in-range target from the action. -/
theorem controller_phase_invariant (crossings : List Nat) (noA : Bool)
    (redD yellowD greenD : Nat) (phases : Nat → PhaseSet) (acts : List Nat)
    (cur : List (Nat × Nat)) (td : Nat) (evs : List Event)
    (curB : List (Nat × Nat)) (tdB : Nat)
    (h1 : simulate noA redD yellowD greenD phases acts cur td = some (evs, curB, tdB))
    (h2 : ∀ pr ∈ cur, pr.2 < (phases pr.1).G.length)
    (h3 : ∀ p ∈ acts.zip cur, p.1 < (phases p.2.1).G.length) :
    (∀ pr ∈ resetCur crossings, pr.2 = 0) ∧
    ∀ pr ∈ curB, pr.2 < (phases pr.1).G.length ∧ (pr ∈ cur ∨ pr.2 ∈ acts) := by
  constructor
  · intro pr hpr
    simp only [resetCur, List.mem_map] at hpr
    obtain ⟨cx, _, hpr⟩ := hpr
    rw [← hpr]
  · cases noA with
    | true =>
      have hcur := simulate_noActions_cur redD yellowD greenD phases acts cur td h1
      intro pr hpr
      rw [hcur] at hpr
      exact ⟨h2 pr hpr, Or.inl hpr⟩
    | false =>
      obtain ⟨_, e2, _⟩ := simulate_some redD yellowD greenD phases acts cur td h1
      intro pr hpr
      rw [e2] at hpr
      rcases mem_applyChanges _ _ hpr with hin | ⟨t, ht, hpr2⟩
      · exact ⟨h2 pr hin, Or.inl hin⟩
      · obtain ⟨hzip, _⟩ := mem_changedOf ht
        refine ⟨?_, Or.inr ?_⟩
        · rw [hpr2]
          exact h3 _ hzip
        · rw [hpr2]
          exact zip_mem_left hzip

theorem controller_phase_invariant_witness :
    (∀ pr ∈ resetCur [0, 1], pr.2 = 0) ∧
    ∀ pr ∈ [((0 : Nat), (1 : Nat)), (1, 0)],
      pr.2 < (phasesA pr.1).G.length ∧
      (pr ∈ [((0 : Nat), (0 : Nat)), (1, 0)] ∨ pr.2 ∈ ([1, 0] : List Nat)) :=
  controller_phase_invariant [0, 1] false 2 1 3 phasesA [1, 0] [(0, 0), (1, 0)] 5
    (simTrace 2 1 3 phasesA [1, 0] [(0, 0), (1, 0)]) [(0, 1), (1, 0)] 11
    (by decide) (by decide) (by decide)

/-- Claim C6: the Done flag returned by step is true exactly when the
cumulative duration, evaluated after the ticks of the step have been
consumed, strictly exceeds the episode budget; it stays true on any
later step because the duration never decreases, and reset re-zeroes
the duration. -/
theorem stepEnv_done_characterization (cfg : EnvConfig) (st : CtrlState)
    (acts : List Nat) (lw : List (List Char × Int)) (evs : List Event)
    (stB : CtrlState) (rew : Int) (done : Bool)
    (h : stepEnv cfg st acts lw = some (evs, stB, rew, done)) :
    (done = true ↔ cfg.maxDur < stB.totalDuration) ∧
    (cfg.maxDur < st.totalDuration → done = true) ∧
    resetTotalDuration cfg = 0 := by
  cases hs : simulate cfg.noActions cfg.redD cfg.yellowD cfg.greenD cfg.phases
      acts st.cur st.totalDuration with
  | none =>
    rw [stepEnv, hs] at h
    exact absurd h (by simp)
  | some r =>
    rw [stepEnv, hs] at h
    simp only [Option.map_some', Option.some.injEq, Prod.mk.injEq] at h
    obtain ⟨he, hst, hr, hd⟩ := h
    have htd := simulate_td cfg.noActions cfg.redD cfg.yellowD cfg.greenD cfg.phases
      acts st.cur st.totalDuration hs
    refine ⟨?_, ?_, ?_⟩
    · rw [← hd, ← hst]
      simp
    · intro hlt
      rw [← hd]
      simp only [decide_eq_true_eq]
      rw [htd]
      omega
    · rw [resetTotalDuration, resetEnv]
      by_cases hna : cfg.noActions
      · simp [hna]
      · simp only [if_neg hna]
        cases hrc : resetCmds cfg.phases cfg.crossings <;> simp

theorem stepEnv_done_characterization_witness :
    (true = true ↔ cfgA.maxDur < (⟨[(0, 0)], 3, 0⟩ : CtrlState).totalDuration) ∧
    (cfgA.maxDur < (⟨[(0, 0)], 0, 0⟩ : CtrlState).totalDuration → true = true) ∧
    resetTotalDuration cfgA = 0 :=
  stepEnv_done_characterization cfgA ⟨[(0, 0)], 0, 0⟩ [0] []
    [Event.setPhase 0 10, Event.tick, Event.tick, Event.tick] ⟨[(0, 0)], 3, 0⟩ 0 true
    (by decide)

lemma d2mdGo_four (d : Nat) :
    d2mdGo 4 d = [d % 4, d / 4 % 4, d / 4 / 4 % 4, d / 4 / 4 / 4 % 4] := rfl

lemma d2md_closed (d : Nat) :
    d2md d = [d / 4 / 4 / 4 % 4, d / 4 / 4 % 4, d / 4 % 4, d % 4] := by
  simp [d2md, d2mdGo_four]

lemma d2md_mod (d : Nat) : d2md (d % 256) = d2md d := by
  simp only [d2md_closed, List.cons.injEq, and_true]
  omega

/-- Claim C9: the flat-to-vector decoder is total and truncating: for
every flat index d, d2md d has length four with entries in the range
zero to three, and re-encoding gives d modulo 256, so indices of 256 or
more alias to d modulo 256 instead of being rejected. -/
theorem d2md_total_alias (d : Nat) :
    (d2md d).length = 4 ∧ (∀ x ∈ d2md d, x < 4) ∧ md2d (d2md d) = d % 256 := by
  simp only [d2md_closed]
  refine ⟨by simp, ?_, ?_⟩
  · intro x hx
    simp only [List.mem_cons, List.not_mem_nil, or_false] at hx
    rcases hx with rfl | rfl | rfl | rfl <;> omega
  · simp only [md2d, List.foldl_cons, List.foldl_nil]
    omega

/-- Claim C4: the codec is an exact inverse pair on valid vectors: for
every vector of length four with entries below four, decoding the
encoded flat index returns the vector itself. -/
theorem d2md_md2d_id (v : List Nat) (hlen : v.length = 4)
    (hb : ∀ x ∈ v, x < 4) : d2md (md2d v) = v := by
  match v, hlen with
  | [a, b, c, e], _ =>
    simp only [List.mem_cons, List.not_mem_nil, or_false, forall_eq_or_imp,
      forall_eq] at hb
    obtain ⟨ha, hb2, hc, he⟩ := hb
    simp only [md2d, List.foldl_cons, List.foldl_nil, d2md_closed,
      List.cons.injEq, and_true]
    omega

theorem d2md_md2d_id_witness :
    ([1, 2, 3, 0] : List Nat).length = 4 ∧ (∀ x ∈ ([1, 2, 3, 0] : List Nat), x < 4) ∧
    d2md (md2d [1, 2, 3, 0]) = [1, 2, 3, 0] :=
  ⟨by decide, by decide, d2md_md2d_id [1, 2, 3, 0] (by decide) (by decide)⟩

/-- Claim C5 (counterexample): a flat index strictly greater than
4 ^ 4 - 1 is not rejected and does not abort the step: with the
four-intersection configuration, stepFlat on index 256 succeeds, its
decoded vector is the same as for index 0, the engine is advanced
(ticks appear in the trace), and the result is identical to stepping
with index 0, so no InvalidActionKind failure occurs before engine
mutation. -/
theorem stepFlat_overflow_accepted :
    4 ^ 4 - 1 < 256 ∧ d2md 256 = d2md 0 ∧
    (stepFlat cfgB stB 256 []).isSome = true ∧
    stepFlat cfgB stB 256 [] = stepFlat cfgB stB 0 [] ∧
    ((stepFlat cfgB stB 256 []).map (fun r => tickCount r.1)).getD 0 = 3 := by
  refine ⟨by decide, by decide, by decide, by decide, by decide⟩

/-- Claim C5 (amended): step in flat discrete mode never fails on an
oversized index; it behaves exactly as the index reduced modulo 256,
because d2md truncates. -/
theorem stepFlat_mod_alias (cfg : EnvConfig) (st : CtrlState) (d : Nat)
    (lw : List (List Char × Int)) :
    stepFlat cfg st d lw = stepFlat cfg st (d % 256) lw := by
  rw [stepFlat, stepFlat, d2md_mod]

lemma foldl_add_filter (p : List Char × Int → Bool) :
    ∀ (lw : List (List Char × Int)) (acc : Int),
      lw.foldl (fun a kv => if p kv then a + kv.2 else a) acc =
        acc + ((lw.filter p).map Prod.snd).sum := by
  intro lw
  induction lw with
  | nil => intro acc; simp
  | cons kv lw ih =>
    intro acc
    by_cases hp : p kv
    · simp only [List.foldl_cons, if_pos hp, ih, List.filter_cons, hp, if_true,
        List.map_cons, List.sum_cons]
      ring
    · simp only [List.foldl_cons, if_neg hp, ih, List.filter_cons, hp,
        Bool.false_eq_true, if_false]

lemma foldl_sub_filter (p : List Char × Int → Bool) :
    ∀ (lw : List (List Char × Int)) (acc : Int),
      lw.foldl (fun a kv => if p kv then a - kv.2 else a) acc =
        acc - ((lw.filter p).map Prod.snd).sum := by
  intro lw
  induction lw with
  | nil => intro acc; simp
  | cons kv lw ih =>
    intro acc
    by_cases hp : p kv
    · simp only [List.foldl_cons, if_pos hp, ih, List.filter_cons, hp, if_true,
        List.map_cons, List.sum_cons]
      ring
    · simp only [List.foldl_cons, if_neg hp, ih, List.filter_cons, hp,
        Bool.false_eq_true, if_false]

lemma laneMatchAdd_eq (lw : List (List Char × Int)) (road : List Char) (acc : Int) :
    laneMatchAdd lw road acc = acc + matchSum lw road :=
  foldl_add_filter _ lw acc

lemma laneMatchSub_eq (lw : List (List Char × Int)) (road : List Char) (acc : Int) :
    laneMatchSub lw road acc = acc - matchSum lw road :=
  foldl_sub_filter _ lw acc

lemma roads_foldl_add (lw : List (List Char × Int)) :
    ∀ (roads : List (List Char)) (acc : Int),
      roads.foldl (fun a r => laneMatchAdd lw r a) acc =
        acc + (roads.map (matchSum lw)).sum := by
  intro roads
  induction roads with
  | nil => intro acc; simp
  | cons r roads ih =>
    intro acc
    rw [List.foldl_cons, ih, laneMatchAdd_eq, List.map_cons, List.sum_cons]
    ring

lemma roads_foldl_sub (lw : List (List Char × Int)) :
    ∀ (roads : List (List Char)) (acc : Int),
      roads.foldl (fun a r => laneMatchSub lw r a) acc =
        acc - (roads.map (matchSum lw)).sum := by
  intro roads
  induction roads with
  | nil => intro acc; simp
  | cons r roads ih =>
    intro acc
    rw [List.foldl_cons, ih, laneMatchSub_eq, List.map_cons, List.sum_cons]
    ring

lemma crossReward_eq (inR outR : List (List Char)) (lw : List (List Char × Int)) :
    crossReward inR outR lw =
      -((inR.map (matchSum lw)).sum - (outR.map (matchSum lw)).sum) := by
  rw [crossReward, roads_foldl_sub, roads_foldl_add]
  ring

lemma bool_eq_decide {b : Bool} {P : Prop} [Decidable P] (h : b = true ↔ P) :
    b = decide P := by
  cases hb : b <;> simp_all

lemma matchSum_eq_eqSum {lw : List (List Char × Int)} {r : List Char}
    (Hsub : ∀ kv ∈ lw, isSubstring (stripTwo kv.1) r = true ↔ stripTwo kv.1 = r) :
    matchSum lw r = eqSum lw r := by
  rw [matchSum, eqSum, List.filter_congr]
  intro kv hkv
  exact bool_eq_decide (Hsub kv hkv)

lemma sum_filter_mem_cons (r : List Char) (rs : List (List Char)) (hr : r ∉ rs) :
    ∀ lw : List (List Char × Int),
      ((lw.filter (fun kv => decide (stripTwo kv.1 ∈ r :: rs))).map Prod.snd).sum =
      ((lw.filter (fun kv => decide (stripTwo kv.1 = r))).map Prod.snd).sum +
      ((lw.filter (fun kv => decide (stripTwo kv.1 ∈ rs))).map Prod.snd).sum := by
  intro lw
  induction lw with
  | nil => simp
  | cons kv lw ih =>
    by_cases h1 : stripTwo kv.1 = r
    · have h2 : stripTwo kv.1 ∉ rs := by rw [h1]; exact hr
      have c1 : decide (stripTwo kv.1 ∈ r :: rs) = true := by simp [h1]
      have c2 : decide (stripTwo kv.1 = r) = true := by simp [h1]
      rw [List.filter_cons, List.filter_cons, List.filter_cons, if_pos c1,
        if_pos c2, if_neg (by simp [h2] : ¬decide (stripTwo kv.1 ∈ rs) = true),
        List.map_cons, List.sum_cons, List.map_cons, List.sum_cons, ih]
      ring
    · by_cases h2 : stripTwo kv.1 ∈ rs
      · have c1 : decide (stripTwo kv.1 ∈ r :: rs) = true := by simp [h2]
        have c3 : decide (stripTwo kv.1 ∈ rs) = true := by simp [h2]
        rw [List.filter_cons, List.filter_cons, List.filter_cons, if_pos c1,
          if_neg (by simp [h1] : ¬decide (stripTwo kv.1 = r) = true), if_pos c3,
          List.map_cons, List.sum_cons, List.map_cons, List.sum_cons, ih]
        ring
      · have h3 : stripTwo kv.1 ∉ r :: rs := by simp [h1, h2]
        rw [List.filter_cons, List.filter_cons, List.filter_cons,
          if_neg (by simp [h3] : ¬decide (stripTwo kv.1 ∈ r :: rs) = true),
          if_neg (by simp [h1] : ¬decide (stripTwo kv.1 = r) = true),
          if_neg (by simp [h2] : ¬decide (stripTwo kv.1 ∈ rs) = true)]
        exact ih

lemma eqSum_sum_to_memSum (lw : List (List Char × Int)) :
    ∀ (roads : List (List Char)), roads.Nodup →
      (roads.map (eqSum lw)).sum = memSum lw roads := by
  intro roads
  induction roads with
  | nil => intro _; simp [memSum]
  | cons r rs ih =>
    intro hnd
    rw [List.nodup_cons] at hnd
    rw [List.map_cons, List.sum_cons, ih hnd.2, memSum, memSum,
      sum_filter_mem_cons r rs hnd.1 lw, eqSum]

lemma memSum_zero {lw : List (List Char × Int)} (hz : ∀ kv ∈ lw, kv.2 = 0)
    (roads : List (List Char)) : memSum lw roads = 0 := by
  induction lw with
  | nil => simp [memSum]
  | cons kv lw ih =>
    have hkv : kv.2 = 0 := hz kv (List.mem_cons_self _ _)
    have htail : ∀ kv ∈ lw, kv.2 = 0 := fun q hq => hz q (List.mem_cons_of_mem _ hq)
    rw [memSum, List.filter_cons]
    by_cases hc : stripTwo kv.1 ∈ roads
    · simp only [hc, decide_True, if_true, List.map_cons, List.sum_cons, hkv]
      rw [← memSum, ih htail]
      ring
    · simp only [hc, decide_False, Bool.false_eq_true, if_false]
      rw [← memSum, ih htail]

/-- Claim C7 (counterexample): with incoming road ids a and ab, no
outgoing roads, and a single lane axy with one waiting vehicle, the
code computes reward -2 (the lane matches both road ids by substring
containment) while the specified formula, summing over the lanes of the
incoming roads, gives -1; so the reward builder does not equal the
specified incoming-minus-outgoing formula. -/
theorem crossReward_substring_mismatch :
    crossReward [['a'], ['a', 'b']] [] [(['a', 'x', 'y'], 1)] = -2 ∧
    specCrossReward [['a'], ['a', 'b']] [] [(['a', 'x', 'y'], 1)] = -1 ∧
    crossReward [['a'], ['a', 'b']] [] [(['a', 'x', 'y'], 1)] ≠
      specCrossReward [['a'], ['a', 'b']] [] [(['a', 'x', 'y'], 1)] := by
  refine ⟨by decide, by decide, by decide⟩

/-- Claim C7 (amended): the reward builder matches lanes to roads by
substring containment of the stripped lane id in each road id, so a
lane can be counted once per matching road.  Whenever the stripped lane
ids match a listed road id only by equality and the road lists are
duplicate-free, the computed reward equals the negation of incoming
waiting minus outgoing waiting, and it is zero when every waiting count
is zero. -/
theorem crossReward_spec_amended (inR outR : List (List Char))
    (lw : List (List Char × Int))
    (Hsub : ∀ kv ∈ lw, ∀ r, r ∈ inR ++ outR →
      (isSubstring (stripTwo kv.1) r = true ↔ stripTwo kv.1 = r))
    (hin : inR.Nodup) (hout : outR.Nodup) :
    crossReward inR outR lw = specCrossReward inR outR lw ∧
    ((∀ kv ∈ lw, kv.2 = 0) → crossReward inR outR lw = 0) := by
  have hmapIn : (inR.map (matchSum lw)).sum = (inR.map (eqSum lw)).sum := by
    rw [List.map_congr_left]
    intro r hr
    exact matchSum_eq_eqSum (fun kv hkv =>
      Hsub kv hkv r (List.mem_append_left _ hr))
  have hmapOut : (outR.map (matchSum lw)).sum = (outR.map (eqSum lw)).sum := by
    rw [List.map_congr_left]
    intro r hr
    exact matchSum_eq_eqSum (fun kv hkv =>
      Hsub kv hkv r (List.mem_append_right _ hr))
  have hmain : crossReward inR outR lw = specCrossReward inR outR lw := by
    rw [crossReward_eq, hmapIn, hmapOut, eqSum_sum_to_memSum lw inR hin,
      eqSum_sum_to_memSum lw outR hout, specCrossReward]
  refine ⟨hmain, ?_⟩
  intro hz
  rw [hmain, specCrossReward, memSum_zero hz, memSum_zero hz]
  ring

theorem crossReward_spec_amended_witness :
    (∀ kv ∈ [(['a', 'x', 'y'], (2 : Int)), (['b', 'x', 'y'], 3)],
      ∀ r, r ∈ [['a']] ++ [['b']] →
        (isSubstring (stripTwo kv.1) r = true ↔ stripTwo kv.1 = r)) ∧
    ([[('a' : Char)]] : List (List Char)).Nodup ∧
    ([[('b' : Char)]] : List (List Char)).Nodup ∧
    (crossReward [['a']] [['b']] [(['a', 'x', 'y'], 2), (['b', 'x', 'y'], 3)] =
      specCrossReward [['a']] [['b']] [(['a', 'x', 'y'], 2), (['b', 'x', 'y'], 3)] ∧
    ((∀ kv ∈ [(['a', 'x', 'y'], (2 : Int)), (['b', 'x', 'y'], 3)], kv.2 = 0) →
      crossReward [['a']] [['b']] [(['a', 'x', 'y'], 2), (['b', 'x', 'y'], 3)] = 0)) :=
  ⟨by decide, by decide, by decide,
    crossReward_spec_amended [['a']] [['b']]
      [(['a', 'x', 'y'], 2), (['b', 'x', 'y'], 3)] (by decide) (by decide) (by decide)⟩
